import Mathlib

open scoped List

/-!
Shallow embedding of `src/flattenMIDI.py` (MidiFlattener).

The Python source works on plain tuples:
  * a note is the 4-tuple `(start, end, note, velocity)` (plus a trailing
    source-track id in the orchestrator, which `splitPartIntoVoices` never
    reads), embedded here as the structure `Note` whose field `stop` models
    the tuple's `end` component (`end` is a Lean keyword);
  * a mido message is embedded as `Message` with the fields the code reads
    (`type`, `note`, `velocity`, `time`, `channel`).

Python's `list.sort(key=...)` is a stable sort; it is embedded with the
stable `List.insertionSort` over the decidable total preorder induced by
the Python sort key, which produces exactly the same list as any stable
sort by that key.
-/

/-- A note interval: the Python tuple `(start, end, note, velocity)`;
`stop` models `end`, `pitch` models the tuple's `note` component. -/
structure Note where
  start : Int
  stop : Int
  pitch : Int
  velocity : Int
deriving DecidableEq

/-- `class Strategy(Enum)` from the source. -/
inductive Strategy where
  | BALANCED
  | DROP_EXCESS
  | FIRST_FIT
deriving DecidableEq

/-- The placement test `if not voice or startTime >= voice[-1][1]`. -/
def eligible (startTime : Int) (voice : List Note) : Bool :=
  match voice.getLast? with
  | none => true
  | some last => decide (startTime ≥ last.stop)

/-- The Python `for voice in voices: ... break` scan of the FIRST_FIT and
DROP_EXCESS branches: index of the first voice the note may be appended to. -/
def findEligible (startTime : Int) : List (List Note) → Option Nat
  | [] => none
  | v :: vs =>
    if eligible startTime v then some 0
    else (findEligible startTime vs).map (· + 1)

/-- `min(availableVoices, key=lambda i: len(voices[i]))`: Python `min`
keeps the first element attaining the minimum. -/
def minByLen (voices : List (List Note)) : List Nat → Option Nat
  | [] => none
  | i :: rest =>
    some (rest.foldl (fun b j =>
      if (voices.getD j []).length < (voices.getD b []).length then j else b) i)

/-- The message of the `raise Exception(f"More than {maxVoices} ...")`. -/
def capacityMessage (maxVoices : Nat) : String :=
  "More than " ++ toString maxVoices ++ " simultaneous notes detected! Consider using strategy=Strategy.DROP_EXCESS (Arg: -s drop_excess) or increasing maxVoices."

/-- One iteration of the `for note in notes` loop of `splitPartIntoVoices`;
`note.start` is the loop's `startTime`, and the BALANCED branch's
`availableVoices` is the filtered index list. -/
def placeNote (maxVoices : Nat) (strategy : Strategy) (voices : List (List Note))
    (note : Note) : Except String (List (List Note)) :=
  match strategy with
  | Strategy.BALANCED =>
    match minByLen voices
        ((List.range voices.length).filter fun i => eligible note.start (voices.getD i [])) with
    | some bestVoiceIdx =>
        Except.ok (voices.set bestVoiceIdx ((voices.getD bestVoiceIdx []) ++ [note]))
    | none => Except.error (capacityMessage maxVoices)
  | Strategy.DROP_EXCESS =>
    match findEligible note.start voices with
    | some i => Except.ok (voices.set i ((voices.getD i []) ++ [note]))
    | none => Except.ok voices
  | Strategy.FIRST_FIT =>
    match findEligible note.start voices with
    | some i => Except.ok (voices.set i ((voices.getD i []) ++ [note]))
    | none => Except.error (capacityMessage maxVoices)

/-- The whole `for note in notes` loop; `Except.error` models the raised
exception (which aborts the remaining input). -/
def splitFold (maxVoices : Nat) (strategy : Strategy) :
    List Note → List (List Note) → Except String (List (List Note))
  | [], voices => Except.ok voices
  | note :: rest, voices =>
    match placeNote maxVoices strategy voices note with
    | Except.ok voices' => splitFold maxVoices strategy rest voices'
    | Except.error e => Except.error e

/-- `splitPartIntoVoices(notes, maxVoices, strategy)` from the source. -/
def splitPartIntoVoices (notes : List Note) (maxVoices : Nat) (strategy : Strategy) :
    Except String (List (List Note)) :=
  splitFold maxVoices strategy notes (List.replicate maxVoices [])

/-! ### The peak-concurrency sweep of `analyzeAndPrintTrackInfo` -/

/-- The event list built by `events.append((start, 'start'));
events.append((end, 'end'))`; `true` marks a `'start'` event. -/
def noteEvents : List Note → List (Int × Bool)
  | [] => []
  | n :: rest => (n.start, true) :: (n.stop, false) :: noteEvents rest

/-- The total preorder induced by the sort key
`lambda x: (x[0], x[1] == 'start')` (ascending; `False < True`). -/
def eventLE (a b : Int × Bool) : Prop :=
  a.1 < b.1 ∨ (a.1 = b.1 ∧ a.2 ≤ b.2)

instance : DecidableRel eventLE := fun a b =>
  inferInstanceAs (Decidable (a.1 < b.1 ∨ (a.1 = b.1 ∧ a.2 ≤ b.2)))

instance : IsTotal (Int × Bool) eventLE := by
  constructor
  intro a b
  unfold eventLE
  rcases Int.lt_trichotomy a.1 b.1 with h | h | h
  · exact Or.inl (Or.inl h)
  · rcases Bool.le_total a.2 b.2 with hb | hb
    · exact Or.inl (Or.inr ⟨h, hb⟩)
    · exact Or.inr (Or.inr ⟨h.symm, hb⟩)
  · exact Or.inr (Or.inl h)

instance : IsTrans (Int × Bool) eventLE := by
  constructor
  intro a b c hab hbc
  unfold eventLE at *
  rcases hab with h1 | ⟨h1, h1'⟩ <;> rcases hbc with h2 | ⟨h2, h2'⟩
  · exact Or.inl (h1.trans h2)
  · exact Or.inl (h2 ▸ h1)
  · exact Or.inl (h1 ▸ h2)
  · exact Or.inr ⟨h1.trans h2, le_trans h1' h2'⟩

/-- `events.sort(key=lambda x: (x[0], x[1] == 'start'))`: stable sort by
the key, so at equal times `'end'` events come before `'start'` events. -/
def sortedEvents (notes : List Note) : List (Int × Bool) :=
  List.insertionSort eventLE (noteEvents notes)

/-- The sweep loop: `currentActive` increments on `'start'`, decrements on
`'end'`; the maximum is only updated on `'start'` events. -/
def sweep : List (Int × Bool) → Int → Int → Int
  | [], _, maxSimult => maxSimult
  | (_, true) :: rest, currentActive, maxSimult =>
      sweep rest (currentActive + 1) (max maxSimult (currentActive + 1))
  | (_, false) :: rest, currentActive, maxSimult =>
      sweep rest (currentActive - 1) maxSimult

/-- The `maxSimultaneous` value computed (and returned) by
`analyzeAndPrintTrackInfo` on a list of notes: `0` for an empty list,
otherwise the sweep over the sorted event list. -/
def maxSimultaneous (notes : List Note) : Int :=
  if notes.isEmpty then 0 else sweep (sortedEvents notes) 0 0

/-! ### `parseMidiNotes` and `createVoiceTrack` -/

/-- The mido message kinds the code distinguishes. -/
inductive MType where
  | note_on
  | note_off
  | other
deriving DecidableEq

/-- A mido message, restricted to the fields the code reads. `time` is the
delta time. -/
structure Message where
  type : MType
  note : Int
  velocity : Int
  time : Int
  channel : Int
deriving DecidableEq

/-- The `ongoing` dict, keyed by pitch, holding `(start, velocity)`:
lookup (`msg.note in ongoing` plus the read). -/
def dictFind (key : Int) (d : List (Int × Int × Int)) : Option (Int × Int) :=
  (d.find? (fun e => e.1 == key)).map (fun e => (e.2.1, e.2.2))

/-- `ongoing.pop(msg.note)`: remove the entry with the given key. -/
def dictPop (key : Int) (d : List (Int × Int × Int)) : List (Int × Int × Int) :=
  d.eraseP (fun e => e.1 == key)

/-- `ongoing[msg.note] = (currentTime, msg.velocity)`: overwrite semantics. -/
def dictInsert (key : Int) (v : Int × Int) (d : List (Int × Int × Int)) :
    List (Int × Int × Int) :=
  (key, v.1, v.2) :: d.eraseP (fun e => e.1 == key)

/-- The `for msg in track` loop of `parseMidiNotes`, threading
`currentTime`, the `ongoing` dict and the accumulated `notes` list
(`currentTime + msg.time` is the updated `currentTime += msg.time`). -/
def parseGo : List Message → Int → List (Int × Int × Int) → List Note → List Note
  | [], _, _, notes => notes
  | msg :: rest, currentTime, ongoing, notes =>
    if msg.type = MType.note_on ∧ msg.velocity > 0 then
      parseGo rest (currentTime + msg.time)
        (dictInsert msg.note (currentTime + msg.time, msg.velocity) ongoing) notes
    else if msg.type = MType.note_off ∨ (msg.type = MType.note_on ∧ msg.velocity = 0) then
      match dictFind msg.note ongoing with
      | some (start, velocity) =>
          parseGo rest (currentTime + msg.time) (dictPop msg.note ongoing)
            (notes ++ [Note.mk start (currentTime + msg.time) msg.note velocity])
      | none => parseGo rest (currentTime + msg.time) ongoing notes
    else
      parseGo rest (currentTime + msg.time) ongoing notes

/-- The total preorder of `notes.sort(key=lambda x: x[0])`. -/
def noteLE (a b : Note) : Prop := a.start ≤ b.start

instance : DecidableRel noteLE := fun a b =>
  inferInstanceAs (Decidable (a.start ≤ b.start))

instance : IsTotal Note noteLE := ⟨fun a b => Int.le_total a.start b.start⟩

instance : IsTrans Note noteLE := ⟨fun _ _ _ h1 h2 => le_trans h1 h2⟩

/-- `parseMidiNotes(track)` from the source: extract note intervals, then
stable-sort them by start time. -/
def parseMidiNotes (track : List Message) : List Note :=
  List.insertionSort noteLE (parseGo track 0 [] [])

/-- The loop body of `createVoiceTrack`, threading `currentTime`:
`n.start - currentTime` is the loop's `deltaStart` and `n.stop - n.start`
its `deltaEnd`. -/
def createVoiceTrackGo (channel : Int) : Int → List Note → List Message
  | _, [] => []
  | currentTime, n :: rest =>
    Message.mk MType.note_on n.pitch n.velocity (n.start - currentTime) channel ::
    Message.mk MType.note_off n.pitch 0 (n.stop - n.start) channel ::
    createVoiceTrackGo channel n.stop rest

/-- `createVoiceTrack(voiceNotes, channel, ticksPerBeat)` from the source
(the `ticksPerBeat` parameter is unused by the Python body as well). -/
def createVoiceTrack (voiceNotes : List Note) (channel : Int) (ticksPerBeat : Int) :
    List Message :=
  createVoiceTrackGo channel 0 voiceNotes


/-! ### Derived predicates and specification devices (definitions) -/

/-- Canonical form of "no voice can take the note". -/
def noneEligible (s : Int) (voices : List (List Note)) : Prop :=
  ∀ i < voices.length, eligible s (voices.getD i []) = false

instance (s : Int) (voices : List (List Note)) : Decidable (noneEligible s voices) :=
  inferInstanceAs (Decidable (∀ i < voices.length, eligible s (voices.getD i []) = false))

/-- The non-overlap relation of a voice: the previous note ends no later
than the next begins. -/
def noOverlap (a b : Note) : Prop := a.stop ≤ b.start

instance : DecidableRel noOverlap := fun a b =>
  inferInstanceAs (Decidable (a.stop ≤ b.start))

/-- A note is active at instant `s` in the half-open sense `start <= s < end`
(the sense in which the code's sweep counts it, for notes with
`start <= end`). -/
def activeAt (s : Int) (n : Note) : Bool :=
  decide (n.start ≤ s) && decide (s < n.stop)

/-- The evolution of the loop variable `currentActive` of the sweep in
`analyzeAndPrintTrackInfo` (the same updates `sweep` applies to its
`currentActive` argument, without the maximum tracking). -/
def sweepActive : List (Int × Bool) → Int → Int
  | [], currentActive => currentActive
  | (_, true) :: rest, currentActive => sweepActive rest (currentActive + 1)
  | (_, false) :: rest, currentActive => sweepActive rest (currentActive - 1)

/-! ### Helper lemmas: the allocator -/

theorem findEligible_eq_none_iff (s : Int) : ∀ (voices : List (List Note)),
    findEligible s voices = none ↔ noneEligible s voices
  | [] => by
    constructor
    · intro _ i hi
      exact absurd hi (Nat.not_lt_zero i)
    · intro _
      rfl
  | v :: vs => by
    unfold findEligible
    by_cases h : eligible s v = true
    · rw [if_pos h]
      constructor
      · intro hcontra
        exact absurd hcontra (by simp)
      · intro hall
        have h0 := hall 0 (Nat.succ_pos _)
        rw [List.getD_cons_zero, h] at h0
        exact absurd h0 (by simp)
    · rw [if_neg h]
      rw [Bool.not_eq_true] at h
      constructor
      · intro hmap
        have hnone : findEligible s vs = none := by
          rcases hf : findEligible s vs with _ | j
          · rfl
          · rw [hf] at hmap
            exact absurd hmap (by simp)
        have hall := (findEligible_eq_none_iff s vs).1 hnone
        intro i hi
        match i with
        | 0 => rw [List.getD_cons_zero]; exact h
        | j + 1 =>
          rw [List.getD_cons_succ]
          exact hall j (Nat.lt_of_succ_lt_succ hi)
      · intro hall
        have hnone : findEligible s vs = none :=
          (findEligible_eq_none_iff s vs).2 (fun i hi => by
            have := hall (i + 1) (Nat.succ_lt_succ hi)
            rwa [List.getD_cons_succ] at this)
        rw [hnone]
        rfl

theorem findEligible_some_spec (s : Int) : ∀ (voices : List (List Note)) (i : Nat),
    findEligible s voices = some i →
    i < voices.length ∧ eligible s (voices.getD i []) = true
  | [], i => fun h => by simp [findEligible] at h
  | v :: vs, i => fun h => by
    unfold findEligible at h
    by_cases hv : eligible s v = true
    · rw [if_pos hv] at h
      cases h
      exact ⟨Nat.succ_pos _, by rw [List.getD_cons_zero]; exact hv⟩
    · rw [if_neg hv] at h
      rcases hf : findEligible s vs with _ | j
      · rw [hf] at h
        exact Option.noConfusion h
      · rw [hf] at h
        rw [show Option.map (fun x => x + 1) (some j) = some (j + 1) from rfl] at h
        cases h
        obtain ⟨h1, h2⟩ := findEligible_some_spec s vs j hf
        exact ⟨Nat.succ_lt_succ h1, by rwa [List.getD_cons_succ]⟩

theorem minByLen_foldl_mem (voices : List (List Note)) :
    ∀ (l : List Nat) (i : Nat),
      (l.foldl (fun b j =>
        if (voices.getD j []).length < (voices.getD b []).length then j else b) i) ∈ i :: l
  | [], i => List.mem_singleton.2 rfl
  | x :: xs, i => by
    simp only [List.foldl_cons]
    by_cases hc : (voices.getD x []).length < (voices.getD i []).length
    · rw [if_pos hc]
      have h := minByLen_foldl_mem voices xs x
      rcases List.mem_cons.1 h with h' | h'
      · rw [h']
        exact List.mem_cons_of_mem _ (List.mem_cons_self _ _)
      · exact List.mem_cons_of_mem _ (List.mem_cons_of_mem _ h')
    · rw [if_neg hc]
      have h := minByLen_foldl_mem voices xs i
      rcases List.mem_cons.1 h with h' | h'
      · rw [h']
        exact List.mem_cons_self _ _
      · exact List.mem_cons_of_mem _ (List.mem_cons_of_mem _ h')

theorem minByLen_mem {voices : List (List Note)} {l : List Nat} {b : Nat}
    (h : minByLen voices l = some b) : b ∈ l := by
  match l with
  | [] => simp [minByLen] at h
  | i :: rest =>
    simp only [minByLen, Option.some.injEq] at h
    exact h ▸ minByLen_foldl_mem voices rest i

theorem minByLen_eq_none_iff {voices : List (List Note)} {l : List Nat} :
    minByLen voices l = none ↔ l = [] := by
  match l with
  | [] => simp [minByLen]
  | i :: rest => simp [minByLen]

theorem avail_eq_nil_iff {s : Int} {voices : List (List Note)} :
    ((List.range voices.length).filter fun i => eligible s (voices.getD i [])) = [] ↔
      noneEligible s voices := by
  rw [List.filter_eq_nil_iff]
  constructor
  · intro h i hi
    have := h i (List.mem_range.2 hi)
    rwa [Bool.not_eq_true] at this
  · intro h i hi
    rw [Bool.not_eq_true]
    exact h i (List.mem_range.1 hi)

/-- Case analysis of one successful loop iteration: under DROP_EXCESS the
note may be silently dropped; otherwise (any strategy) it is appended to
an eligible voice. -/
theorem placeNote_ok_cases {mv : Nat} {strat : Strategy} {voices : List (List Note)}
    {note : Note} {voices' : List (List Note)}
    (h : placeNote mv strat voices note = Except.ok voices') :
    (strat = Strategy.DROP_EXCESS ∧ voices' = voices ∧ noneEligible note.start voices) ∨
    ∃ j, j < voices.length ∧ eligible note.start (voices.getD j []) = true ∧
      voices' = voices.set j ((voices.getD j []) ++ [note]) := by
  cases strat with
  | BALANCED =>
    simp only [placeNote] at h
    split at h
    · rename_i b hm
      have hb := minByLen_mem hm
      rw [List.mem_filter, List.mem_range] at hb
      cases h
      exact Or.inr ⟨b, hb.1, hb.2, rfl⟩
    · exact absurd h (by simp)
  | DROP_EXCESS =>
    simp only [placeNote] at h
    split at h
    · rename_i i hf
      obtain ⟨h1, h2⟩ := findEligible_some_spec _ _ _ hf
      cases h
      exact Or.inr ⟨i, h1, h2, rfl⟩
    · rename_i hf
      cases h
      exact Or.inl ⟨rfl, rfl, (findEligible_eq_none_iff _ _).1 hf⟩
  | FIRST_FIT =>
    simp only [placeNote] at h
    split at h
    · rename_i i hf
      obtain ⟨h1, h2⟩ := findEligible_some_spec _ _ _ hf
      cases h
      exact Or.inr ⟨i, h1, h2, rfl⟩
    · exact absurd h (by simp)

theorem splitFold_append {mv : Nat} {strat : Strategy} :
    ∀ (l₁ l₂ : List Note) (voices : List (List Note)),
      splitFold mv strat (l₁ ++ l₂) voices =
        match splitFold mv strat l₁ voices with
        | Except.ok voices' => splitFold mv strat l₂ voices'
        | Except.error e => Except.error e
  | [], l₂, voices => by simp only [List.nil_append, splitFold]
  | note :: rest, l₂, voices => by
    simp only [List.cons_append, splitFold]
    rcases hp : placeNote mv strat voices note with e | voices'
    · rfl
    · exact splitFold_append rest l₂ voices'

theorem chain'_append_of_eligible {v : List Note} {n : Note}
    (he : eligible n.start v = true)
    (hc : List.Chain' noOverlap v) :
    List.Chain' noOverlap (v ++ [n]) := by
  apply List.Chain'.append hc (List.chain'_singleton n)
  intro x hx y hy
  rw [List.head?_cons] at hy
  have hyn : y = n := by
    cases hy
    rfl
  rw [hyn]
  unfold eligible at he
  rw [Option.mem_def] at hx
  rw [hx] at he
  show x.stop ≤ n.start
  exact of_decide_eq_true he

theorem splitFold_chain' {mv : Nat} {strat : Strategy} :
    ∀ (pending : List Note) (voices voices' : List (List Note)),
      (∀ v ∈ voices, List.Chain' noOverlap v) →
      splitFold mv strat pending voices = Except.ok voices' →
      ∀ v ∈ voices', List.Chain' noOverlap v
  | [], voices, voices', hinv, h => by
    simp only [splitFold] at h
    cases h
    exact hinv
  | note :: rest, voices, voices', hinv, h => by
    simp only [splitFold] at h
    split at h
    · rename_i vs' hp
      refine splitFold_chain' rest vs' voices' ?_ h
      rcases placeNote_ok_cases hp with ⟨_, rfl, _⟩ | ⟨j, hj, helig, rfl⟩
      · exact hinv
      · intro v hv
        rcases List.mem_or_eq_of_mem_set hv with hv' | rfl
        · exact hinv v hv'
        · have hmem : voices.getD j [] ∈ voices := by
            rw [List.getD_eq_getElem _ _ hj]
            exact List.getElem_mem hj
          exact chain'_append_of_eligible helig (hinv _ hmem)
    · exact absurd h (by simp)

/-- Claim C1: for every input note list and every strategy (first_fit,
balanced, drop_excess), whenever `splitPartIntoVoices` returns a result,
every produced voice is internally non-overlapping: adjacent notes `a`
before `b` in a voice satisfy `a.end <= b.start` (a note is only ever
appended to a voice that is empty or whose last note ends no later than
the note starts). -/
theorem C1_voices_nonoverlapping
    (notes : List Note) (maxVoices : Nat) (strategy : Strategy)
    (voices : List (List Note))
    (h : splitPartIntoVoices notes maxVoices strategy = Except.ok voices) :
    ∀ v ∈ voices, List.Chain' noOverlap v := by
  refine splitFold_chain' notes (List.replicate maxVoices []) voices ?_ h
  intro v hv
  rw [List.eq_of_mem_replicate hv]
  exact List.chain'_nil

/-- Witness for C1 at a concrete input: the first voice produced on a
three-note input under balanced is non-overlapping. -/
theorem C1_witness :
    List.Chain' noOverlap [(⟨0, 5, 60, 64⟩ : Note), ⟨5, 9, 64, 64⟩] :=
  C1_voices_nonoverlapping [⟨0, 5, 60, 64⟩, ⟨0, 3, 62, 64⟩, ⟨5, 9, 64, 64⟩] 2
    Strategy.BALANCED [[⟨0, 5, 60, 64⟩, ⟨5, 9, 64, 64⟩], [⟨0, 3, 62, 64⟩]] rfl
    [⟨0, 5, 60, 64⟩, ⟨5, 9, 64, 64⟩] (List.mem_cons_self _ _)

/-! ### Bookkeeping invariants of the allocation fold -/

theorem splitFold_length {mv : Nat} {strat : Strategy} :
    ∀ (pending : List Note) (voices voices' : List (List Note)),
      splitFold mv strat pending voices = Except.ok voices' →
      voices'.length = voices.length
  | [], voices, voices', h => by
    simp only [splitFold] at h
    cases h
    rfl
  | note :: rest, voices, voices', h => by
    simp only [splitFold] at h
    split at h
    · rename_i vs' hp
      have hlen := splitFold_length rest vs' voices' h
      rcases placeNote_ok_cases hp with ⟨_, rfl, _⟩ | ⟨j, hj, _, rfl⟩
      · exact hlen
      · rw [hlen, List.length_set]
    · exact absurd h (by simp)

theorem flatten_set_append_perm :
    ∀ (voices : List (List Note)) (j : Nat), j < voices.length → ∀ (n : Note),
      (voices.set j ((voices.getD j []) ++ [n])).flatten ~ n :: voices.flatten
  | [], j, hj, n => absurd hj (Nat.not_lt_zero j)
  | v :: vs, 0, _, n => by
    rw [List.getD_cons_zero, List.set_cons_zero, List.flatten_cons, List.flatten_cons,
      List.append_assoc]
    exact List.perm_middle
  | v :: vs, j + 1, hj, n => by
    rw [List.getD_cons_succ, List.set_cons_succ, List.flatten_cons, List.flatten_cons]
    have ih := flatten_set_append_perm vs j (Nat.lt_of_succ_lt_succ hj) n
    exact (List.Perm.append_left v ih).trans List.perm_middle

theorem splitFold_flatten_subperm {mv : Nat} {strat : Strategy} :
    ∀ (pending : List Note) (voices voices' : List (List Note)),
      splitFold mv strat pending voices = Except.ok voices' →
      voices'.flatten <+~ voices.flatten ++ pending
  | [], voices, voices', h => by
    simp only [splitFold] at h
    cases h
    rw [List.append_nil]
  | note :: rest, voices, voices', h => by
    simp only [splitFold] at h
    split at h
    · rename_i vs' hp
      have ih := splitFold_flatten_subperm rest vs' voices' h
      rcases placeNote_ok_cases hp with ⟨_, rfl, _⟩ | ⟨j, hj, _, rfl⟩
      · refine ih.trans (List.Sublist.subperm ?_)
        exact List.Sublist.append_left (List.sublist_cons_self note rest) _
      · have hperm := flatten_set_append_perm voices j hj note
        refine ih.trans ?_
        refine (List.Perm.append_right rest hperm).subperm.trans ?_
        have : voices.flatten ++ note :: rest ~ note :: (voices.flatten ++ rest) :=
          List.perm_middle
        exact (List.Perm.subperm this.symm)
    · exact absurd h (by simp)

/-- Claim C9 (implicit): whenever `splitPartIntoVoices` returns normally it
returns exactly `maxVoices` voices (some possibly empty), and the notes of
all returned voices, with multiplicity, form a sub-multiset of the input
list: every placed note is an input note, placed in at most one voice and
at most once. -/
theorem C9_result_shape
    (notes : List Note) (maxVoices : Nat) (strategy : Strategy)
    (voices : List (List Note))
    (h : splitPartIntoVoices notes maxVoices strategy = Except.ok voices) :
    voices.length = maxVoices ∧ voices.flatten <+~ notes ∧
      ∀ x : Note, voices.flatten.count x ≤ notes.count x := by
  have hlen := splitFold_length notes (List.replicate maxVoices []) voices h
  have hsub := splitFold_flatten_subperm notes (List.replicate maxVoices []) voices h
  rw [List.flatten_replicate_nil, List.nil_append] at hsub
  rw [List.length_replicate] at hlen
  exact ⟨hlen, hsub, fun x => hsub.count_le x⟩

/-- Witness for C9 at a concrete input (drop_excess drops one of three
notes). -/
theorem C9_witness :
    ([[(⟨0, 10, 60, 64⟩ : Note)], [⟨0, 4, 62, 64⟩]] : List (List Note)).length = 2 ∧
      ([[(⟨0, 10, 60, 64⟩ : Note)], [⟨0, 4, 62, 64⟩]] : List (List Note)).flatten <+~
        [⟨0, 10, 60, 64⟩, ⟨0, 4, 62, 64⟩, ⟨2, 6, 64, 64⟩] ∧
      ∀ x : Note,
        ([[(⟨0, 10, 60, 64⟩ : Note)], [⟨0, 4, 62, 64⟩]] : List (List Note)).flatten.count x ≤
          ([⟨0, 10, 60, 64⟩, ⟨0, 4, 62, 64⟩, ⟨2, 6, 64, 64⟩] : List Note).count x :=
  C9_result_shape [⟨0, 10, 60, 64⟩, ⟨0, 4, 62, 64⟩, ⟨2, 6, 64, 64⟩] 2
    Strategy.DROP_EXCESS _ rfl

/-! ### Drop-excess totality and placement accounting -/

theorem placeNote_drop_ok (mv : Nat) (voices : List (List Note)) (note : Note) :
    ∃ voices', placeNote mv Strategy.DROP_EXCESS voices note = Except.ok voices' := by
  simp only [placeNote]
  rcases hf : findEligible note.start voices with _ | i
  · exact ⟨voices, rfl⟩
  · exact ⟨voices.set i ((voices.getD i []) ++ [note]), rfl⟩

theorem splitFold_drop_ok (mv : Nat) :
    ∀ (pending : List Note) (voices : List (List Note)),
      ∃ voices', splitFold mv Strategy.DROP_EXCESS pending voices = Except.ok voices'
  | [], voices => ⟨voices, rfl⟩
  | note :: rest, voices => by
    obtain ⟨vs', hp⟩ := placeNote_drop_ok mv voices note
    obtain ⟨voices', hrec⟩ := splitFold_drop_ok mv rest vs'
    refine ⟨voices', ?_⟩
    simp only [splitFold, hp]
    exact hrec

theorem splitFold_flatten_length_nondrop {mv : Nat} {strat : Strategy}
    (hstrat : strat ≠ Strategy.DROP_EXCESS) :
    ∀ (pending : List Note) (voices voices' : List (List Note)),
      splitFold mv strat pending voices = Except.ok voices' →
      voices'.flatten.length = voices.flatten.length + pending.length
  | [], voices, voices', h => by
    simp only [splitFold] at h
    cases h
    rfl
  | note :: rest, voices, voices', h => by
    simp only [splitFold] at h
    split at h
    · rename_i vs' hp
      have ih := splitFold_flatten_length_nondrop hstrat rest vs' voices' h
      rcases placeNote_ok_cases hp with ⟨hd, _, _⟩ | ⟨j, hj, _, rfl⟩
      · exact absurd hd hstrat
      · rw [ih, (flatten_set_append_perm voices j hj note).length_eq]
        simp only [List.length_cons]
        omega
    · exact absurd h (by simp)

/-- Counterexample to claim C3 as stated: the value returned by
`splitPartIntoVoices` under drop_excess is a bare voice list — the
function's return type carries no list of dropped notes at all — and on
this two-note input the returned voices hold only one note, so no
component of the result accounts for the dropped note. -/
theorem C3_counterexample :
    splitPartIntoVoices [⟨0, 10, 60, 64⟩, ⟨5, 6, 62, 64⟩] 1 Strategy.DROP_EXCESS =
        Except.ok [[⟨0, 10, 60, 64⟩]] ∧
      (([[(⟨0, 10, 60, 64⟩ : Note)]]).map List.length).sum <
        ([⟨0, 10, 60, 64⟩, ⟨5, 6, 62, 64⟩] : List Note).length :=
  ⟨rfl, by decide⟩

/-- Claim C3 (amended): drop_excess never raises, but the result contains
only the voices (no dropped list); the sum of the voice lengths is at most
the input note count under drop_excess, and equals the input note count
for first_fit/balanced on success (zero notes dropped). -/
theorem C3_drop_never_raises_and_conservation (notes : List Note) (mv : Nat) :
    (∃ voices, splitPartIntoVoices notes mv Strategy.DROP_EXCESS = Except.ok voices ∧
      (voices.map List.length).sum ≤ notes.length) ∧
    ∀ strategy voices, strategy ≠ Strategy.DROP_EXCESS →
      splitPartIntoVoices notes mv strategy = Except.ok voices →
      (voices.map List.length).sum = notes.length := by
  constructor
  · obtain ⟨voices, h⟩ := splitFold_drop_ok mv notes (List.replicate mv [])
    refine ⟨voices, h, ?_⟩
    have hsub := splitFold_flatten_subperm notes (List.replicate mv []) voices h
    rw [List.flatten_replicate_nil, List.nil_append] at hsub
    rw [← List.length_flatten]
    exact hsub.length_le
  · intro strategy voices hstrat h
    have := splitFold_flatten_length_nondrop hstrat notes (List.replicate mv []) voices h
    rw [List.flatten_replicate_nil] at this
    rw [← List.length_flatten, this, List.length_nil]
    omega

/-- Witness for C3 (amended) at concrete inputs. -/
theorem C3_witness :
    (∃ voices,
        splitPartIntoVoices [⟨0, 5, 60, 64⟩, ⟨5, 9, 62, 64⟩] 2 Strategy.DROP_EXCESS =
          Except.ok voices ∧
        (voices.map List.length).sum ≤ 2) ∧
      (([[(⟨0, 5, 60, 64⟩ : Note), ⟨5, 9, 62, 64⟩], []]).map List.length).sum = 2 :=
  ⟨(C3_drop_never_raises_and_conservation [⟨0, 5, 60, 64⟩, ⟨5, 9, 62, 64⟩] 2).1,
   (C3_drop_never_raises_and_conservation [⟨0, 5, 60, 64⟩, ⟨5, 9, 62, 64⟩] 2).2
     Strategy.FIRST_FIT [[⟨0, 5, 60, 64⟩, ⟨5, 9, 62, 64⟩], []] (by decide) rfl⟩

/-! ### Capacity-exceeded behaviour (first_fit / balanced) -/

theorem placeNote_error_of_noneEligible {mv : Nat} {strat : Strategy}
    {voices : List (List Note)} {note : Note}
    (hstrat : strat ≠ Strategy.DROP_EXCESS)
    (hnone : noneEligible note.start voices) :
    placeNote mv strat voices note = Except.error (capacityMessage mv) := by
  cases strat with
  | BALANCED =>
    simp only [placeNote]
    have havail := avail_eq_nil_iff.2 hnone
    rw [havail]
    rfl
  | DROP_EXCESS => exact absurd rfl hstrat
  | FIRST_FIT =>
    simp only [placeNote]
    rw [(findEligible_eq_none_iff _ _).2 hnone]

/-- Claim C5 (amended): under first_fit and balanced, when some note has
no eligible voice, allocation raises the capacity-exceeded error
synchronously at that note, aborting the remaining input (the result does
not depend on `rest`); the raised message carries the configured voice
limit — but, unlike the claim states, not the offending note. -/
theorem C5_capacity_error (pre : List Note) (n : Note) (rest : List Note)
    (mv : Nat) (strat : Strategy) (vs : List (List Note))
    (hstrat : strat ≠ Strategy.DROP_EXCESS)
    (hpre : splitFold mv strat pre (List.replicate mv []) = Except.ok vs)
    (hnone : noneEligible n.start vs) :
    splitPartIntoVoices (pre ++ n :: rest) mv strat =
      Except.error (capacityMessage mv) := by
  unfold splitPartIntoVoices
  rw [splitFold_append pre (n :: rest) (List.replicate mv []), hpre]
  simp only [splitFold]
  rw [placeNote_error_of_noneEligible hstrat hnone]

/-- Witness for C5 (amended) at a concrete input: the error is raised at
the second note and the third note is never examined. -/
theorem C5_witness :
    splitPartIntoVoices [⟨0, 10, 60, 64⟩, ⟨3, 5, 62, 64⟩, ⟨100, 200, 64, 64⟩] 1
        Strategy.FIRST_FIT =
      Except.error (capacityMessage 1) :=
  C5_capacity_error [⟨0, 10, 60, 64⟩] ⟨3, 5, 62, 64⟩ [⟨100, 200, 64, 64⟩] 1
    Strategy.FIRST_FIT [[⟨0, 10, 60, 64⟩]] (by decide) rfl (by decide)

/-- Counterexample to claim C5 as stated: two runs failing at different
offending notes return the identical error value, so the raised condition
cannot carry the offending note (it is a function of the voice limit
alone). -/
theorem C5_counterexample :
    splitPartIntoVoices [⟨0, 10, 60, 64⟩, ⟨3, 5, 62, 64⟩] 1 Strategy.FIRST_FIT =
        splitPartIntoVoices [⟨0, 10, 60, 64⟩, ⟨4, 7, 77, 99⟩] 1 Strategy.FIRST_FIT ∧
      (⟨3, 5, 62, 64⟩ : Note) ≠ ⟨4, 7, 77, 99⟩ ∧
      splitPartIntoVoices [⟨0, 10, 60, 64⟩, ⟨3, 5, 62, 64⟩] 1 Strategy.FIRST_FIT =
        Except.error (capacityMessage 1) :=
  ⟨rfl, by decide, rfl⟩

/-! ### The balanced policy picks the first smallest eligible voice -/

theorem minBy_foldl_spec (voices : List (List Note)) :
    ∀ (l : List Nat) (i : Nat), (i :: l).Pairwise (· < ·) →
      (∀ j ∈ i :: l,
        (voices.getD (l.foldl (fun b j =>
          if (voices.getD j []).length < (voices.getD b []).length then j else b) i) []).length ≤
          (voices.getD j []).length) ∧
      (∀ j ∈ i :: l,
        j < l.foldl (fun b j =>
          if (voices.getD j []).length < (voices.getD b []).length then j else b) i →
        (voices.getD (l.foldl (fun b j =>
          if (voices.getD j []).length < (voices.getD b []).length then j else b) i) []).length <
          (voices.getD j []).length)
  | [], i, _ => by
    constructor
    · intro j hj
      rw [List.mem_singleton.1 hj]
      exact Nat.le_refl _
    · intro j hj hlt
      rw [List.mem_singleton.1 hj] at hlt
      exact absurd hlt (Nat.lt_irrefl _)
  | x :: xs, i, hp => by
    simp only [List.foldl_cons]
    rw [List.pairwise_cons] at hp
    obtain ⟨hi_lt, hp'⟩ := hp
    by_cases hc : (voices.getD x []).length < (voices.getD i []).length
    · rw [if_pos hc]
      have ih := minBy_foldl_spec voices xs x hp'
      constructor
      · intro j hj
        rcases List.mem_cons.1 hj with rfl | hj'
        · exact Nat.le_of_lt (Nat.lt_of_le_of_lt (ih.1 x (List.mem_cons_self _ _)) hc)
        · exact ih.1 j hj'
      · intro j hj hlt
        rcases List.mem_cons.1 hj with rfl | hj'
        · exact Nat.lt_of_le_of_lt (ih.1 x (List.mem_cons_self _ _)) hc
        · exact ih.2 j hj' hlt
    · rw [if_neg hc]
      have hc' : (voices.getD i []).length ≤ (voices.getD x []).length := Nat.le_of_not_lt hc
      rw [List.pairwise_cons] at hp'
      obtain ⟨hx_lt, hpxs⟩ := hp'
      have hp'' : (i :: xs).Pairwise (· < ·) := by
        rw [List.pairwise_cons]
        exact ⟨fun b hb => Nat.lt_trans (hi_lt x (List.mem_cons_self _ _)) (hx_lt b hb), hpxs⟩
      have ih := minBy_foldl_spec voices xs i hp''
      have hmem := minByLen_foldl_mem voices xs i
      constructor
      · intro j hj
        rcases List.mem_cons.1 hj with rfl | hj'
        · exact ih.1 j (List.mem_cons_self _ _)
        · rcases List.mem_cons.1 hj' with rfl | hj'' 
          · exact Nat.le_trans (ih.1 i (List.mem_cons_self _ _)) hc'
          · exact ih.1 j (List.mem_cons_of_mem _ hj'')
      · intro j hj hlt
        rcases List.mem_cons.1 hj with rfl | hj'
        · exact ih.2 j (List.mem_cons_self _ _) hlt
        · rcases List.mem_cons.1 hj' with rfl | hj''
          · -- j = x and x < result, so the result lies in xs and is smaller than voice i
            have hres_xs : (xs.foldl (fun b j =>
                if (voices.getD j []).length < (voices.getD b []).length then j else b) i) ∈ xs := by
              rcases List.mem_cons.1 hmem with he | hin
              · rw [he] at hlt
                exact absurd (Nat.lt_trans (hi_lt j (List.mem_cons_self _ _)) hlt)
                  (Nat.lt_irrefl _)
              · exact hin
            have := ih.2 i (List.mem_cons_self _ _)
              (hi_lt _ (List.mem_cons_of_mem _ hres_xs))
            exact Nat.lt_of_lt_of_le this hc'
          · exact ih.2 j (List.mem_cons_of_mem _ hj'') hlt

/-- Claim C6: under balanced, a note is placed into the eligible voice
(empty, or last note ends no later than the note starts) currently holding
the fewest notes, ties among equally small eligible voices broken by the
lowest voice index. -/
theorem C6_balanced_fewest (mv : Nat) (voices : List (List Note)) (note : Note)
    (hex : ∃ i, i < voices.length ∧ eligible note.start (voices.getD i []) = true) :
    ∃ b, placeNote mv Strategy.BALANCED voices note =
        Except.ok (voices.set b ((voices.getD b []) ++ [note])) ∧
      b < voices.length ∧ eligible note.start (voices.getD b []) = true ∧
      (∀ j, j < voices.length → eligible note.start (voices.getD j []) = true →
        (voices.getD b []).length ≤ (voices.getD j []).length) ∧
      (∀ j, j < b → eligible note.start (voices.getD j []) = true →
        (voices.getD b []).length < (voices.getD j []).length) := by
  obtain ⟨i0, hi0, helig0⟩ := hex
  have hmem0 : i0 ∈ (List.range voices.length).filter
      (fun i => eligible note.start (voices.getD i [])) :=
    List.mem_filter.2 ⟨List.mem_range.2 hi0, helig0⟩
  rcases havail : (List.range voices.length).filter
      (fun i => eligible note.start (voices.getD i [])) with _ | ⟨a, l⟩
  · rw [havail] at hmem0
    exact absurd hmem0 (List.not_mem_nil i0)
  · have hpw : (a :: l).Pairwise (· < ·) := by
      rw [← havail]
      exact (List.pairwise_lt_range _).filter _
    have hspec := minBy_foldl_spec voices l a hpw
    set b := l.foldl (fun b j =>
      if (voices.getD j []).length < (voices.getD b []).length then j else b) a with hbdef
    have hbmem : b ∈ a :: l := minByLen_foldl_mem voices l a
    have hbfilter : b ∈ (List.range voices.length).filter
        (fun i => eligible note.start (voices.getD i [])) := by
      rw [havail]
      exact hbmem
    rw [List.mem_filter, List.mem_range] at hbfilter
    refine ⟨b, ?_, hbfilter.1, hbfilter.2, ?_, ?_⟩
    · simp only [placeNote, minByLen, havail]
    · intro j hj hjelig
      exact hspec.1 j (by
        rw [← havail]
        exact List.mem_filter.2 ⟨List.mem_range.2 hj, hjelig⟩)
    · intro j hj hjelig
      refine hspec.2 j ?_ hj
      rw [← havail]
      have hjlen : j < voices.length := Nat.lt_trans hj hbfilter.1
      exact List.mem_filter.2 ⟨List.mem_range.2 hjlen, hjelig⟩

/-- Witness for C6: with three eligible voices holding 2, 1 and 3 notes,
the next note is placed into the voice holding 1 note (index 1). -/
theorem C6_witness :
    (∃ b, placeNote 3 Strategy.BALANCED
          [[⟨0, 1, 60, 64⟩, ⟨1, 2, 60, 64⟩], [⟨0, 2, 61, 64⟩],
            [⟨0, 1, 62, 64⟩, ⟨1, 2, 62, 64⟩, ⟨2, 3, 62, 64⟩]] ⟨5, 6, 70, 64⟩ =
        Except.ok
          (([[⟨0, 1, 60, 64⟩, ⟨1, 2, 60, 64⟩], [⟨0, 2, 61, 64⟩],
            [⟨0, 1, 62, 64⟩, ⟨1, 2, 62, 64⟩, ⟨2, 3, 62, 64⟩]] : List (List Note)).set b
            (([[⟨0, 1, 60, 64⟩, ⟨1, 2, 60, 64⟩], [⟨0, 2, 61, 64⟩],
              [⟨0, 1, 62, 64⟩, ⟨1, 2, 62, 64⟩, ⟨2, 3, 62, 64⟩]] : List (List Note)).getD b [] ++
              [⟨5, 6, 70, 64⟩])) ∧
      b < 3 ∧
      eligible 5 (([[⟨0, 1, 60, 64⟩, ⟨1, 2, 60, 64⟩], [⟨0, 2, 61, 64⟩],
        [⟨0, 1, 62, 64⟩, ⟨1, 2, 62, 64⟩, ⟨2, 3, 62, 64⟩]] : List (List Note)).getD b []) = true ∧
      (∀ j, j < 3 → eligible 5 (([[⟨0, 1, 60, 64⟩, ⟨1, 2, 60, 64⟩], [⟨0, 2, 61, 64⟩],
          [⟨0, 1, 62, 64⟩, ⟨1, 2, 62, 64⟩, ⟨2, 3, 62, 64⟩]] : List (List Note)).getD j []) = true →
        (([[⟨0, 1, 60, 64⟩, ⟨1, 2, 60, 64⟩], [⟨0, 2, 61, 64⟩],
          [⟨0, 1, 62, 64⟩, ⟨1, 2, 62, 64⟩, ⟨2, 3, 62, 64⟩]] : List (List Note)).getD b []).length ≤
          (([[⟨0, 1, 60, 64⟩, ⟨1, 2, 60, 64⟩], [⟨0, 2, 61, 64⟩],
            [⟨0, 1, 62, 64⟩, ⟨1, 2, 62, 64⟩,
              ⟨2, 3, 62, 64⟩]] : List (List Note)).getD j []).length) ∧
      (∀ j, j < b → eligible 5 (([[⟨0, 1, 60, 64⟩, ⟨1, 2, 60, 64⟩], [⟨0, 2, 61, 64⟩],
          [⟨0, 1, 62, 64⟩, ⟨1, 2, 62, 64⟩, ⟨2, 3, 62, 64⟩]] : List (List Note)).getD j []) = true →
        (([[⟨0, 1, 60, 64⟩, ⟨1, 2, 60, 64⟩], [⟨0, 2, 61, 64⟩],
          [⟨0, 1, 62, 64⟩, ⟨1, 2, 62, 64⟩, ⟨2, 3, 62, 64⟩]] : List (List Note)).getD b []).length <
          (([[⟨0, 1, 60, 64⟩, ⟨1, 2, 60, 64⟩], [⟨0, 2, 61, 64⟩],
            [⟨0, 1, 62, 64⟩, ⟨1, 2, 62, 64⟩,
              ⟨2, 3, 62, 64⟩]] : List (List Note)).getD j []).length)) ∧
      placeNote 3 Strategy.BALANCED
          [[⟨0, 1, 60, 64⟩, ⟨1, 2, 60, 64⟩], [⟨0, 2, 61, 64⟩],
            [⟨0, 1, 62, 64⟩, ⟨1, 2, 62, 64⟩, ⟨2, 3, 62, 64⟩]] ⟨5, 6, 70, 64⟩ =
        Except.ok
          [[⟨0, 1, 60, 64⟩, ⟨1, 2, 60, 64⟩], [⟨0, 2, 61, 64⟩, ⟨5, 6, 70, 64⟩],
            [⟨0, 1, 62, 64⟩, ⟨1, 2, 62, 64⟩, ⟨2, 3, 62, 64⟩]] :=
  ⟨C6_balanced_fewest 3
    [[⟨0, 1, 60, 64⟩, ⟨1, 2, 60, 64⟩], [⟨0, 2, 61, 64⟩],
      [⟨0, 1, 62, 64⟩, ⟨1, 2, 62, 64⟩, ⟨2, 3, 62, 64⟩]] ⟨5, 6, 70, 64⟩
    ⟨0, by decide, by decide⟩, rfl⟩

/-! ### Sweep lemmas -/

theorem sweep_ge_max : ∀ (events : List (Int × Bool)) (cur m : Int), m ≤ sweep events cur m
  | [], _, m => le_refl m
  | (_, true) :: rest, cur, m =>
    le_trans (le_max_left m (cur + 1)) (sweep_ge_max rest (cur + 1) (max m (cur + 1)))
  | (_, false) :: rest, cur, m => sweep_ge_max rest (cur - 1) m

theorem eventLE_time_le {a b : Int × Bool} (h : eventLE a b) : a.1 ≤ b.1 := by
  rcases h with h | ⟨h, _⟩
  · exact le_of_lt h
  · exact le_of_eq h

theorem eventLE_start_end_lt {s t : Int} (h : eventLE (s, true) (t, false)) : s < t := by
  rcases h with h | ⟨_, h⟩
  · exact h
  · have hb : ((true : Bool) ≤ false) → False := by decide
    exact absurd h hb

/-- Lower bound for the sweep result: after processing any prefix ending
in a `'start'` event, the tracked maximum is at least the counter value at
that point. -/
theorem sweep_ge_prefix :
    ∀ (P : List (Int × Bool)) (t : Int) (S : List (Int × Bool)) (cur m : Int),
      cur + ((P ++ [(t, true)]).countP (fun e => e.2) : Int) -
          (P.countP (fun e => !e.2) : Int) ≤
        sweep (P ++ (t, true) :: S) cur m
  | [], t, S, cur, m => by
    have heq : sweep ([] ++ (t, true) :: S) cur m = sweep S (cur + 1) (max m (cur + 1)) := rfl
    rw [heq]
    refine le_trans ?_ (sweep_ge_max S (cur + 1) (max m (cur + 1)))
    refine le_trans ?_ (le_max_right m (cur + 1))
    simp [List.countP_cons]
  | (u, true) :: P', t, S, cur, m => by
    have heq : sweep (((u, true) :: P') ++ (t, true) :: S) cur m =
        sweep (P' ++ (t, true) :: S) (cur + 1) (max m (cur + 1)) := rfl
    rw [heq]
    have ih := sweep_ge_prefix P' t S (cur + 1) (max m (cur + 1))
    simp only [List.cons_append] at *
    rw [List.countP_cons_of_pos _ _ (by simp), List.countP_cons_of_neg _ _ (by simp)]
    push_cast at *
    omega
  | (u, false) :: P', t, S, cur, m => by
    have heq : sweep (((u, false) :: P') ++ (t, true) :: S) cur m =
        sweep (P' ++ (t, true) :: S) (cur - 1) m := rfl
    rw [heq]
    have ih := sweep_ge_prefix P' t S (cur - 1) m
    simp only [List.cons_append] at *
    rw [List.countP_cons_of_neg _ _ (by simp), List.countP_cons_of_pos _ _ (by simp)]
    push_cast at *
    omega

/-- Upper bound for the sweep result: the maximum only changes at
`'start'` events, so a bound on the counter value at every such point (and
on the initial maximum) bounds the result. -/
theorem sweep_le_of_prefixes :
    ∀ (events : List (Int × Bool)) (cur m bound : Int),
      m ≤ bound →
      (∀ P t S, events = P ++ (t, true) :: S →
        cur + ((P ++ [(t, true)]).countP (fun e => e.2) : Int) -
          (P.countP (fun e => !e.2) : Int) ≤ bound) →
      sweep events cur m ≤ bound
  | [], _, _, _, hm, _ => hm
  | (t, false) :: rest, cur, m, bound, hm, hpre => by
    have heq : sweep ((t, false) :: rest) cur m = sweep rest (cur - 1) m := rfl
    rw [heq]
    refine sweep_le_of_prefixes rest (cur - 1) m bound hm ?_
    intro P u S hsplit
    have h := hpre ((t, false) :: P) u S (by rw [hsplit, List.cons_append])
    simp only [List.cons_append] at h
    rw [List.countP_cons_of_neg _ _ (by simp), List.countP_cons_of_pos _ _ (by simp)] at h
    push_cast at h ⊢
    omega
  | (t, true) :: rest, cur, m, bound, hm, hpre => by
    have heq : sweep ((t, true) :: rest) cur m = sweep rest (cur + 1) (max m (cur + 1)) := rfl
    rw [heq]
    have h0 := hpre [] t rest rfl
    rw [List.nil_append, List.countP_cons_of_pos _ _ (by simp), List.countP_nil,
      List.countP_nil] at h0
    push_cast at h0
    refine sweep_le_of_prefixes rest (cur + 1) (max m (cur + 1)) bound (max_le hm (by omega)) ?_
    intro P u S hsplit
    have h := hpre ((t, true) :: P) u S (by rw [hsplit, List.cons_append])
    simp only [List.cons_append] at h
    rw [List.countP_cons_of_pos _ _ (by simp), List.countP_cons_of_neg _ _ (by simp)] at h
    push_cast at h ⊢
    omega

theorem countP_noteEvents_startsLe (t : Int) : ∀ (notes : List Note),
    (noteEvents notes).countP (fun e => e.2 && decide (e.1 ≤ t)) =
      notes.countP (fun n => decide (n.start ≤ t))
  | [] => rfl
  | n :: rest => by
    have ih := countP_noteEvents_startsLe t rest
    simp only [noteEvents, List.countP_cons, ih]
    cases h : decide (n.start ≤ t) <;> simp [h]

theorem countP_noteEvents_endsLe (t : Int) : ∀ (notes : List Note),
    (noteEvents notes).countP (fun e => !e.2 && decide (e.1 ≤ t)) =
      notes.countP (fun n => decide (n.stop ≤ t))
  | [] => rfl
  | n :: rest => by
    have ih := countP_noteEvents_endsLe t rest
    simp only [noteEvents, List.countP_cons, ih]
    cases h : decide (n.stop ≤ t) <;> simp [h]

theorem mem_noteEvents_start : ∀ {notes : List Note} {n : Note},
    n ∈ notes → (n.start, true) ∈ noteEvents notes
  | m :: rest, n, h => by
    rcases List.mem_cons.1 h with rfl | h'
    · exact List.mem_cons_self _ _
    · exact List.mem_cons_of_mem _ (List.mem_cons_of_mem _ (mem_noteEvents_start h'))

theorem mem_noteEvents_end : ∀ {notes : List Note} {n : Note},
    n ∈ notes → (n.stop, false) ∈ noteEvents notes
  | m :: rest, n, h => by
    rcases List.mem_cons.1 h with rfl | h'
    · exact List.mem_cons_of_mem _ (List.mem_cons_self _ _)
    · exact List.mem_cons_of_mem _ (List.mem_cons_of_mem _ (mem_noteEvents_end h'))

theorem start_event_mem : ∀ {notes : List Note} {t : Int},
    (t, true) ∈ noteEvents notes → ∃ n ∈ notes, n.start = t
  | [], t, h => absurd h (List.not_mem_nil _)
  | m :: rest, t, h => by
    rcases List.mem_cons.1 h with h' | h'
    · exact ⟨m, List.mem_cons_self _ _, (congrArg Prod.fst h').symm⟩
    · rcases List.mem_cons.1 h' with h'' | h''
      · have hb : (true : Bool) = false → False := by decide
        exact absurd (congrArg Prod.snd h'') hb
      · obtain ⟨n, hn, ht⟩ := start_event_mem h''
        exact ⟨n, List.mem_cons_of_mem _ hn, ht⟩

theorem exists_last_split {α : Type} {a : α} : ∀ {l : List α}, a ∈ l →
    ∃ p q, l = p ++ a :: q ∧ a ∉ q
  | [], h => absurd h (List.not_mem_nil a)
  | x :: xs, h => by
    by_cases hx : a ∈ xs
    · obtain ⟨p, q, hpq, hq⟩ := exists_last_split hx
      exact ⟨x :: p, q, by rw [hpq, List.cons_append], hq⟩
    · have hax : a = x := by
        rcases List.mem_cons.1 h with h' | h'
        · exact h'
        · exact absurd h' hx
      subst hax
      exact ⟨[], xs, rfl, hx⟩

theorem sortedEvents_perm (notes : List Note) : sortedEvents notes ~ noteEvents notes :=
  List.perm_insertionSort eventLE (noteEvents notes)

theorem sortedEvents_sorted (notes : List Note) : (sortedEvents notes).Pairwise eventLE :=
  List.sorted_insertionSort eventLE (noteEvents notes)

/-- Counterexample to claim C4 as stated: the sort key
`(time, kind == 'start')` places `False` (an `'end'` event) before `True`
(a `'start'` event) at equal times, so the leave at tick 5 is processed
before the enter at tick 5, and a note beginning exactly when another ends
is NOT counted as simultaneous: the reported peak for `[(0,5),(5,9)]` is
1, not 2. -/
theorem C4_counterexample :
    sortedEvents [⟨0, 5, 60, 64⟩, ⟨5, 9, 62, 64⟩] =
        [(0, true), (5, false), (5, true), (9, false)] ∧
      maxSimultaneous [⟨0, 5, 60, 64⟩, ⟨5, 9, 62, 64⟩] = 1 :=
  ⟨rfl, rfl⟩

/-- Claim C4 (amended): the `(time, kind)` event list is sorted so that a
"leave" event at time T is processed before an "enter" event at the same
time T (the sort key maps `'end'` to `False < True`); consequently a note
beginning exactly when another ends does NOT count as simultaneous with it
in the reported peak, as the `[(0,5),(5,9)]` example shows. -/
theorem C4_leave_before_enter :
    (∀ T : Int, eventLE (T, false) (T, true) ∧ ¬eventLE (T, true) (T, false)) ∧
    (∀ notes : List Note, (sortedEvents notes).Pairwise eventLE) ∧
      maxSimultaneous [⟨0, 5, 60, 64⟩, ⟨5, 9, 62, 64⟩] = 1 := by
  have hfb : (false : Bool) ≤ true := by decide
  refine ⟨fun T => ⟨Or.inr ⟨rfl, hfb⟩, ?_⟩, sortedEvents_sorted, rfl⟩
  intro h
  rcases h with h | ⟨_, h⟩
  · exact lt_irrefl T h
  · have hb : ((true : Bool) ≤ false) → False := by decide
    exact hb h

/-! ### Zero-length intervals in the sweep (C8) -/

theorem countP_starts_eq_countP_ends_of_zero_length {notes : List Note}
    (hzero : ∀ n ∈ notes, n.start = n.stop) (t : Int) :
    (noteEvents notes).countP (fun e => e.2 && decide (e.1 ≤ t)) =
      (noteEvents notes).countP (fun e => !e.2 && decide (e.1 ≤ t)) := by
  rw [countP_noteEvents_startsLe, countP_noteEvents_endsLe]
  exact List.countP_congr (fun n hn => by rw [hzero n hn])

/-- Head of the sorted event list of a non-empty all-zero-length input is
an `'end'` event. -/
theorem sortedEvents_head_end_of_zero_length {notes : List Note}
    (hne : notes ≠ []) (hzero : ∀ n ∈ notes, n.start = n.stop) :
    ∃ t S, sortedEvents notes = (t, false) :: S := by
  have hperm := sortedEvents_perm notes
  obtain ⟨n₀, rest₀, rfl⟩ : ∃ n₀ rest₀, notes = n₀ :: rest₀ := by
    cases notes with
    | nil => exact absurd rfl hne
    | cons a l => exact ⟨a, l, rfl⟩
  have hlen : (sortedEvents (n₀ :: rest₀)).length = (noteEvents (n₀ :: rest₀)).length :=
    hperm.length_eq
  rcases hsort : sortedEvents (n₀ :: rest₀) with _ | ⟨⟨t, b⟩, S⟩
  · rw [hsort] at hlen
    simp [noteEvents] at hlen
  · cases b
    · exact ⟨t, S, rfl⟩
    · exfalso
      have hmem : ((t, true) : Int × Bool) ∈ noteEvents (n₀ :: rest₀) := by
        rw [← hperm.mem_iff, hsort]
        exact List.mem_cons_self _ _
      obtain ⟨n, hn, hstart⟩ := start_event_mem hmem
      have hstop : n.stop = t := by rw [← hzero n hn, hstart]
      have hendmem : ((t, false) : Int × Bool) ∈ sortedEvents (n₀ :: rest₀) := by
        rw [hperm.mem_iff]
        rw [← hstop]
        exact mem_noteEvents_end hn
      rw [hsort] at hendmem
      rcases List.mem_cons.1 hendmem with hcontra | hmemS
      · have hb : (false : Bool) = true → False := by decide
        exact hb (congrArg Prod.snd hcontra)
      · have hsorted := sortedEvents_sorted (n₀ :: rest₀)
        rw [hsort, List.pairwise_cons] at hsorted
        have := hsorted.1 (t, false) hmemS
        exact lt_irrefl t (eventLE_start_end_lt this)

/-- Claim C8 (implicit): in the sweep, a zero-length interval's leave
event sorts before its own enter event and the maximum is only updated on
enter events, so for every non-empty input consisting solely of
zero-length intervals the reported peak concurrency is 0, and the running
active counter becomes negative during the sweep (it is -1 after the
first processed event). -/
theorem C8_zero_length_peak (notes : List Note) (hne : notes ≠ [])
    (hzero : ∀ n ∈ notes, n.start = n.stop) :
    maxSimultaneous notes = 0 ∧ sweepActive ((sortedEvents notes).take 1) 0 = -1 := by
  constructor
  · unfold maxSimultaneous
    rw [if_neg (by
      intro hcontra
      exact hne (List.isEmpty_iff.1 hcontra))]
    refine le_antisymm ?_ (sweep_ge_max _ 0 0)
    refine sweep_le_of_prefixes _ 0 0 0 (le_refl 0) ?_
    intro P t S hsplit
    -- counter after a prefix ending in an enter at time t is non-positive
    have hsorted := sortedEvents_sorted notes
    rw [hsplit] at hsorted
    rw [List.pairwise_append] at hsorted
    obtain ⟨hP, hxS, hcross⟩ := hsorted
    rw [List.pairwise_cons] at hxS
    -- every start in P ++ [(t,true)] has time <= t
    have h1 : (P ++ [(t, true)]).countP (fun e => e.2) ≤
        (P ++ [(t, true)]).countP (fun e => e.2 && decide (e.1 ≤ t)) := by
      refine List.countP_mono_left ?_
      intro x hx hx2
      rcases List.mem_append.1 hx with hxP | hxx
      · have hle := eventLE_time_le (hcross x hxP (t, true) (List.mem_cons_self _ _))
        simp [hx2]
        exact hle
      · rw [List.mem_singleton.1 hxx]
        simp
    have hsplit2 : sortedEvents notes = (P ++ [(t, true)]) ++ S := by
      rw [hsplit, List.append_assoc, List.singleton_append]
    -- counts over the whole sorted list
    have hq : (P ++ [(t, true)]).countP (fun e => e.2 && decide (e.1 ≤ t)) ≤
        (sortedEvents notes).countP (fun e => e.2 && decide (e.1 ≤ t)) := by
      rw [hsplit2]
      conv_rhs => rw [List.countP_append]
      exact Nat.le_add_right _ _
    -- no end with time <= t occurs in (t,true) :: S
    have hr : (sortedEvents notes).countP (fun e => !e.2 && decide (e.1 ≤ t)) ≤
        P.countP (fun e => !e.2) := by
      rw [hsplit2, List.countP_append, List.countP_append]
      have hS : S.countP (fun e => !e.2 && decide (e.1 ≤ t)) = 0 := by
        rw [List.countP_eq_zero]
        rintro ⟨u, c⟩ hu hc
        cases c
        · have := eventLE_start_end_lt (hxS.1 (u, false) hu)
          simp at hc
          omega
        · simp at hc
      have hx : ([(t, true)] : List (Int × Bool)).countP
          (fun e => !e.2 && decide (e.1 ≤ t)) = 0 := by
        simp [List.countP_cons]
      rw [hS, hx]
      have : P.countP (fun e => !e.2 && decide (e.1 ≤ t)) ≤ P.countP (fun e => !e.2) :=
        List.countP_mono_left (fun x _ hx' => by
          simp at hx'
          simp [hx'])
      omega
    have hqr := countP_starts_eq_countP_ends_of_zero_length hzero t
    have hqperm : (sortedEvents notes).countP (fun e => e.2 && decide (e.1 ≤ t)) =
        (noteEvents notes).countP (fun e => e.2 && decide (e.1 ≤ t)) :=
      (sortedEvents_perm notes).countP_eq _
    have hrperm : (sortedEvents notes).countP (fun e => !e.2 && decide (e.1 ≤ t)) =
        (noteEvents notes).countP (fun e => !e.2 && decide (e.1 ≤ t)) :=
      (sortedEvents_perm notes).countP_eq _
    omega
  · obtain ⟨t, S, hsort⟩ := sortedEvents_head_end_of_zero_length hne hzero
    rw [hsort, List.take_succ_cons, List.take_zero]
    rfl

/-- Witness for C8 at a concrete input of two zero-length notes. -/
theorem C8_witness :
    maxSimultaneous [⟨5, 5, 60, 64⟩, ⟨7, 7, 62, 64⟩] = 0 ∧
      sweepActive ((sortedEvents [⟨5, 5, 60, 64⟩, ⟨7, 7, 62, 64⟩]).take 1) 0 = -1 :=
  C8_zero_length_peak [⟨5, 5, 60, 64⟩, ⟨7, 7, 62, 64⟩] (by decide) (by decide)

/-! ### Round trip: createVoiceTrack then parseMidiNotes -/

theorem parseGo_pair (rest : List Message) (n : Note) (channel currentTime : Int)
    (acc : List Note) (hv : n.velocity > 0) :
    parseGo (Message.mk MType.note_on n.pitch n.velocity (n.start - currentTime) channel ::
        Message.mk MType.note_off n.pitch 0 (n.stop - n.start) channel :: rest)
      currentTime [] acc =
    parseGo rest n.stop [] (acc ++ [n]) := by
  have ht1 : currentTime + (n.start - currentTime) = n.start := by ring
  have ht2 : n.start + (n.stop - n.start) = n.stop := by ring
  simp [parseGo, dictFind, dictInsert, dictPop, hv, ht1, ht2]

theorem parseGo_createVoiceTrackGo :
    ∀ (voice : List Note) (channel currentTime : Int) (acc : List Note),
      (∀ n ∈ voice, n.velocity > 0) →
      parseGo (createVoiceTrackGo channel currentTime voice) currentTime [] acc = acc ++ voice
  | [], channel, ct, acc, _ => by simp [createVoiceTrackGo, parseGo]
  | n :: rest, channel, ct, acc, hv => by
    simp only [createVoiceTrackGo]
    rw [parseGo_pair (createVoiceTrackGo channel n.stop rest) n channel ct acc
      (hv n (List.mem_cons_self _ _))]
    rw [parseGo_createVoiceTrackGo rest channel n.stop (acc ++ [n])
      (fun x hx => hv x (List.mem_cons_of_mem _ hx))]
    rw [List.append_assoc, List.singleton_append]

theorem chain'_noteLE_of_noOverlap : ∀ {voice : List Note},
    (∀ n ∈ voice, n.start ≤ n.stop) → List.Chain' noOverlap voice →
    List.Chain' noteLE voice
  | [], _, _ => List.chain'_nil
  | [a], _, _ => List.chain'_singleton a
  | a :: b :: l, hse, hchain => by
    rw [List.chain'_cons] at hchain ⊢
    refine ⟨?_, chain'_noteLE_of_noOverlap (fun x hx => hse x (List.mem_cons_of_mem _ hx))
      hchain.2⟩
    exact le_trans (hse a (List.mem_cons_self _ _)) hchain.1

/-- Claim C7: for every voice of notes sorted with each note's start at or
after the previous note's end (and `start <= end`, `velocity > 0`),
encoding with `createVoiceTrack` and decoding with `parseMidiNotes`
reproduces every note's absolute start and end tick exactly (indeed the
whole note list). -/
theorem C7_roundtrip (voice : List Note) (channel ticksPerBeat : Int)
    (hvel : ∀ n ∈ voice, n.velocity > 0)
    (hse : ∀ n ∈ voice, n.start ≤ n.stop)
    (hchain : List.Chain' noOverlap voice) :
    parseMidiNotes (createVoiceTrack voice channel ticksPerBeat) = voice := by
  unfold parseMidiNotes createVoiceTrack
  rw [parseGo_createVoiceTrackGo voice channel 0 [] hvel, List.nil_append]
  have hpw : voice.Pairwise noteLE :=
    List.chain'_iff_pairwise.1 (chain'_noteLE_of_noOverlap hse hchain)
  exact List.Sorted.insertionSort_eq hpw

/-- Witness for C7 at a concrete two-note voice. -/
theorem C7_witness :
    parseMidiNotes (createVoiceTrack [⟨0, 5, 60, 64⟩, ⟨5, 9, 62, 80⟩] 3 480) =
      [⟨0, 5, 60, 64⟩, ⟨5, 9, 62, 80⟩] :=
  C7_roundtrip [⟨0, 5, 60, 64⟩, ⟨5, 9, 62, 80⟩] 3 480 (by decide) (by decide)
    (List.chain'_cons.2 ⟨by decide, List.chain'_singleton _⟩)

/-! ### Non-negative delta times (C10) -/

theorem createVoiceTrackGo_times_nonneg :
    ∀ (voice : List Note) (channel currentTime : Int),
      (∀ n ∈ voice, n.start ≤ n.stop) →
      List.Chain' noOverlap voice →
      (∀ n0, voice.head? = some n0 → currentTime ≤ n0.start) →
      ∀ m ∈ createVoiceTrackGo channel currentTime voice, 0 ≤ m.time
  | [], _, _, _, _, _ => by
    intro m hm
    exact absurd hm (List.not_mem_nil m)
  | n :: rest, channel, currentTime, hse, hchain, hhead => by
    intro m hm
    simp only [createVoiceTrackGo] at hm
    rcases List.mem_cons.1 hm with rfl | hm' 
    · have := hhead n rfl
      show (0 : Int) ≤ n.start - currentTime
      omega
    · rcases List.mem_cons.1 hm' with rfl | hm''
      · have := hse n (List.mem_cons_self _ _)
        show (0 : Int) ≤ n.stop - n.start
        omega
      · refine createVoiceTrackGo_times_nonneg rest channel n.stop
          (fun x hx => hse x (List.mem_cons_of_mem _ hx)) hchain.tail ?_ m hm''
        intro n0 h0
        exact (List.chain'_cons'.1 hchain).1 n0 h0

/-- Claim C10 (implicit): for every voice whose first note starts at tick
0 or later and whose notes satisfy `start <= end` and the non-overlap
chain (each start at or after the previous end), every delta time on the
messages emitted by `createVoiceTrack` is non-negative. -/
theorem C10_deltas_nonneg (voice : List Note) (channel ticksPerBeat : Int)
    (hse : ∀ n ∈ voice, n.start ≤ n.stop)
    (hchain : List.Chain' noOverlap voice)
    (hfirst : ∀ n0, voice.head? = some n0 → 0 ≤ n0.start) :
    ∀ m ∈ createVoiceTrack voice channel ticksPerBeat, 0 ≤ m.time := by
  unfold createVoiceTrack
  exact createVoiceTrackGo_times_nonneg voice channel 0 hse hchain hfirst

/-- Witness for C10 at a concrete voice: the delta of the first emitted
message (note_on of the note starting at tick 2) is non-negative. -/
theorem C10_witness :
    (0 : Int) ≤ (Message.mk MType.note_on 60 64 2 0).time :=
  C10_deltas_nonneg [⟨2, 5, 60, 64⟩, ⟨5, 9, 62, 80⟩] 0 480 (by decide)
    (List.chain'_cons.2 ⟨by decide, List.chain'_singleton _⟩) (by decide)
    (Message.mk MType.note_on 60 64 2 0) (by decide)

/-! ### Peak concurrency suffices (C2) -/

theorem countP_activeAt_split (s : Int) : ∀ {notes : List Note},
    (∀ n ∈ notes, n.start ≤ n.stop) →
    notes.countP (fun n => decide (n.start ≤ s)) =
      notes.countP (activeAt s) + notes.countP (fun n => decide (n.stop ≤ s))
  | [], _ => rfl
  | n :: rest, hse => by
    have h := hse n (List.mem_cons_self _ _)
    have ih := countP_activeAt_split s (fun x hx => hse x (List.mem_cons_of_mem _ hx))
    simp only [List.countP_cons, ih, activeAt]
    by_cases h1 : n.start ≤ s
    · by_cases h2 : s < n.stop
      · simp [h1, h2, not_le.2 h2]
        omega
      · have h2' : n.stop ≤ s := le_of_not_lt h2
        simp [h1, h2, h2']
        omega
    · have h1' : ¬n.stop ≤ s := by omega
      simp [h1, h1']

theorem length_le_sum_of_one_le : ∀ (l : List Nat), (∀ x ∈ l, 1 ≤ x) → l.length ≤ l.sum
  | [], _ => Nat.le_refl 0
  | x :: xs, h => by
    rw [List.length_cons, List.sum_cons]
    have h1 := h x (List.mem_cons_self _ _)
    have h2 := length_le_sum_of_one_le xs (fun y hy => h y (List.mem_cons_of_mem _ hy))
    omega

theorem eligible_false_elim {s : Int} {v : List Note} (h : eligible s v = false) :
    ∃ last, v.getLast? = some last ∧ s < last.stop := by
  unfold eligible at h
  rcases hg : v.getLast? with _ | last
  · rw [hg] at h
    exact absurd h (by simp)
  · rw [hg] at h
    refine ⟨last, rfl, ?_⟩
    have := of_decide_eq_false h
    omega

/-- The value reported by the sweep is at least the number of notes active
(in the half-open sense) at the start time of any input note. -/
theorem maxSimultaneous_ge_activeAt (notes : List Note)
    (hse : ∀ n ∈ notes, n.start ≤ n.stop)
    {n₀ : Note} (hn₀ : n₀ ∈ notes) :
    (notes.countP (activeAt n₀.start) : Int) ≤ maxSimultaneous notes := by
  unfold maxSimultaneous
  rw [if_neg (by
    intro hcontra
    rw [List.isEmpty_iff.1 hcontra] at hn₀
    exact absurd hn₀ (List.not_mem_nil n₀))]
  have hmemev : ((n₀.start, true) : Int × Bool) ∈ sortedEvents notes := by
    rw [(sortedEvents_perm notes).mem_iff]
    exact mem_noteEvents_start hn₀
  obtain ⟨P, S, hsplit, hnotin⟩ := exists_last_split hmemev
  have hsorted := sortedEvents_sorted notes
  rw [hsplit, List.pairwise_append] at hsorted
  obtain ⟨hP, hxS, hcross⟩ := hsorted
  rw [List.pairwise_cons] at hxS
  have hsplit2 : sortedEvents notes = (P ++ [(n₀.start, true)]) ++ S := by
    rw [hsplit, List.append_assoc, List.singleton_append]
  have hsweep := sweep_ge_prefix P n₀.start S 0 0
  rw [← hsplit] at hsweep
  -- the prefix contains every start with time <= n₀.start
  have hq1 : (sortedEvents notes).countP (fun e => e.2 && decide (e.1 ≤ n₀.start)) ≤
      (P ++ [(n₀.start, true)]).countP (fun e => e.2) := by
    rw [hsplit2, List.countP_append]
    have hqS : S.countP (fun e => e.2 && decide (e.1 ≤ n₀.start)) = 0 := by
      rw [List.countP_eq_zero]
      rintro ⟨u, c⟩ hu hc
      cases c
      · simp at hc
      · simp only [Bool.true_and] at hc
        have h1 := eventLE_time_le (hxS.1 (u, true) hu)
        have h2 : u = n₀.start := le_antisymm (of_decide_eq_true hc) h1
        rw [h2] at hu
        exact hnotin hu
    rw [hqS]
    have hmono : (P ++ [(n₀.start, true)]).countP
          (fun e => e.2 && decide (e.1 ≤ n₀.start)) ≤
        (P ++ [(n₀.start, true)]).countP (fun e => e.2) :=
      List.countP_mono_left (fun x _ hx => by
        simp at hx
        simp [hx.1])
    omega
  -- the prefix's ends all have time <= n₀.start
  have hr1 : P.countP (fun e => !e.2) ≤
      (sortedEvents notes).countP (fun e => !e.2 && decide (e.1 ≤ n₀.start)) := by
    rw [hsplit2, List.countP_append, List.countP_append]
    have hPr : P.countP (fun e => !e.2) =
        P.countP (fun e => !e.2 && decide (e.1 ≤ n₀.start)) := by
      refine List.countP_congr ?_
      rintro ⟨u, c⟩ hu
      have hle := eventLE_time_le (hcross (u, c) hu (n₀.start, true)
        (List.mem_cons_self _ _))
      simp at hle
      simp [hle]
    omega
  have hqperm : (sortedEvents notes).countP (fun e => e.2 && decide (e.1 ≤ n₀.start)) =
      notes.countP (fun n => decide (n.start ≤ n₀.start)) := by
    rw [(sortedEvents_perm notes).countP_eq]
    exact countP_noteEvents_startsLe n₀.start notes
  have hrperm : (sortedEvents notes).countP (fun e => !e.2 && decide (e.1 ≤ n₀.start)) =
      notes.countP (fun n => decide (n.stop ≤ n₀.start)) := by
    rw [(sortedEvents_perm notes).countP_eq]
    exact countP_noteEvents_endsLe n₀.start notes
  have hsplitc := countP_activeAt_split n₀.start hse
  omega

theorem placeNote_ok_of_eligible {mv : Nat} {strat : Strategy}
    {voices : List (List Note)} {note : Note}
    (hex : ∃ i, i < voices.length ∧ eligible note.start (voices.getD i []) = true) :
    ∃ j, j < voices.length ∧ eligible note.start (voices.getD j []) = true ∧
      placeNote mv strat voices note =
        Except.ok (voices.set j ((voices.getD j []) ++ [note])) := by
  obtain ⟨i0, hi0, helig0⟩ := hex
  cases strat with
  | BALANCED =>
    have hmem0 : i0 ∈ (List.range voices.length).filter
        (fun i => eligible note.start (voices.getD i [])) :=
      List.mem_filter.2 ⟨List.mem_range.2 hi0, helig0⟩
    rcases havail : (List.range voices.length).filter
        (fun i => eligible note.start (voices.getD i [])) with _ | ⟨a, l⟩
    · rw [havail] at hmem0
      exact absurd hmem0 (List.not_mem_nil i0)
    · have hbmem : (l.foldl (fun b j =>
          if (voices.getD j []).length < (voices.getD b []).length then j else b) a) ∈
          (List.range voices.length).filter
            (fun i => eligible note.start (voices.getD i [])) := by
        rw [havail]
        exact minByLen_foldl_mem voices l a
      rw [List.mem_filter, List.mem_range] at hbmem
      refine ⟨_, hbmem.1, hbmem.2, ?_⟩
      simp only [placeNote, minByLen, havail]
  | DROP_EXCESS =>
    rcases hf : findEligible note.start voices with _ | i
    · have := (findEligible_eq_none_iff note.start voices).1 hf i0 hi0
      rw [helig0] at this
      exact absurd this (by simp)
    · obtain ⟨h1, h2⟩ := findEligible_some_spec note.start voices i hf
      refine ⟨i, h1, h2, ?_⟩
      simp only [placeNote, hf]
  | FIRST_FIT =>
    rcases hf : findEligible note.start voices with _ | i
    · have := (findEligible_eq_none_iff note.start voices).1 hf i0 hi0
      rw [helig0] at this
      exact absurd this (by simp)
    · obtain ⟨h1, h2⟩ := findEligible_some_spec note.start voices i hf
      refine ⟨i, h1, h2, ?_⟩
      simp only [placeNote, hf]

/-- When every voice is ineligible for the next note of a start-sorted,
strictly-positive-length input, the notes active at that instant number
more than the voice count, contradicting a sufficient peak. -/
theorem exists_eligible_of_peak_le {notes processed rest' : List Note} {n : Note}
    {mv : Nat} {voices : List (List Note)}
    (hnotes : notes = processed ++ n :: rest')
    (hsorted : notes.Pairwise noteLE)
    (hpos : ∀ m ∈ notes, m.start < m.stop)
    (hpeak : maxSimultaneous notes ≤ (mv : Int))
    (hlen : voices.length = mv)
    (hsub : voices.flatten <+~ processed) :
    ∃ i, i < voices.length ∧ eligible n.start (voices.getD i []) = true := by
  by_contra hno
  push_neg at hno
  have hno' : ∀ i, i < voices.length → eligible n.start (voices.getD i []) = false := by
    intro i hi
    have hne := hno i hi
    cases hb : eligible n.start (voices.getD i []) with
    | false => rfl
    | true => exact absurd hb hne
  -- each voice holds a note active at n.start
  have hvoice : ∀ v ∈ voices, 1 ≤ v.countP (activeAt n.start) := by
    intro v hv
    obtain ⟨i, hi, hvi⟩ := List.mem_iff_getElem.1 hv
    have hfalse := hno' i hi
    rw [List.getD_eq_getElem _ _ hi, hvi] at hfalse
    obtain ⟨last, hlast, hstop⟩ := eligible_false_elim hfalse
    have hlastmem : last ∈ v := List.mem_of_getLast?_eq_some hlast
    have hlastproc : last ∈ processed := by
      refine hsub.subset ?_
      rw [List.mem_flatten]
      exact ⟨v, hv, hlastmem⟩
    have hlaststart : last.start ≤ n.start := by
      rw [hnotes, List.pairwise_append] at hsorted
      exact hsorted.2.2 last hlastproc n (List.mem_cons_self _ _)
    refine Nat.succ_le_of_lt (List.countP_pos_iff.2 ⟨last, hlastmem, ?_⟩)
    unfold activeAt
    simp [hlaststart, hstop]
  have hflat : voices.length ≤ voices.flatten.countP (activeAt n.start) := by
    rw [List.countP_flatten]
    calc voices.length = (voices.map (List.countP (activeAt n.start))).length := by
          rw [List.length_map]
      _ ≤ (voices.map (List.countP (activeAt n.start))).sum := by
          refine length_le_sum_of_one_le _ ?_
          intro x hx
          obtain ⟨v, hv, rfl⟩ := List.mem_map.1 hx
          exact hvoice v hv
  have hproc : voices.flatten.countP (activeAt n.start) ≤
      processed.countP (activeAt n.start) := hsub.countP_le _
  have hnactive : activeAt n.start n = true := by
    unfold activeAt
    have := hpos n (by rw [hnotes]; exact List.mem_append_right _ (List.mem_cons_self _ _))
    simp [this]
  have hcount : mv + 1 ≤ notes.countP (activeAt n.start) := by
    rw [hnotes, List.countP_append, List.countP_cons, hnactive]
    have hvl : voices.length ≤ processed.countP (activeAt n.start) := le_trans hflat hproc
    rw [hlen] at hvl
    have hone : (if (true : Bool) = true then 1 else 0) = 1 := rfl
    rw [hone]
    omega
  have hge := maxSimultaneous_ge_activeAt notes
    (fun m hm => le_of_lt (hpos m hm))
    (show n ∈ notes by rw [hnotes]; exact List.mem_append_right _ (List.mem_cons_self _ _))
  omega

theorem splitFold_total_of_peak {mv : Nat} {strat : Strategy} {notes : List Note}
    (hsorted : notes.Pairwise noteLE)
    (hpos : ∀ m ∈ notes, m.start < m.stop)
    (hpeak : maxSimultaneous notes ≤ (mv : Int)) :
    ∀ (pending processed : List Note) (voices : List (List Note)),
      notes = processed ++ pending →
      voices.length = mv →
      voices.flatten <+~ processed →
      ∃ voices', splitFold mv strat pending voices = Except.ok voices' ∧
        voices'.flatten.length = voices.flatten.length + pending.length
  | [], processed, voices, hn, hlen, hsub => ⟨voices, rfl, by simp⟩
  | n :: rest', processed, voices, hn, hlen, hsub => by
    obtain ⟨j, hj, helig, hplace⟩ := @placeNote_ok_of_eligible mv strat voices n
      (exists_eligible_of_peak_le hn hsorted hpos hpeak hlen hsub)
    have hperm := flatten_set_append_perm voices j hj n
    have hsub' : (voices.set j ((voices.getD j []) ++ [n])).flatten <+~ processed ++ [n] := by
      refine hperm.subperm.trans ?_
      refine ((List.subperm_cons n).2 hsub).trans ?_
      have hmid : processed ++ [n] ~ n :: processed := by
        have hm := @List.perm_middle Note n processed []
        rw [List.append_nil] at hm
        exact hm
      exact hmid.symm.subperm
    obtain ⟨voices', hrec, hlen'⟩ := splitFold_total_of_peak hsorted hpos hpeak rest'
      (processed ++ [n]) (voices.set j ((voices.getD j []) ++ [n]))
      (by rw [hn, List.append_assoc, List.singleton_append])
      (by rw [List.length_set]; exact hlen) hsub'
    refine ⟨voices', ?_, ?_⟩
    · simp only [splitFold, hplace]
      exact hrec
    · rw [hlen', hperm.length_eq, List.length_cons]
      simp only [List.length_cons]
      omega

/-- Counterexample to claim C2 as stated: the input `[(0,10),(5,5)]` is
sorted by start and consists of valid NoteIntervals (`start <= end`, the
second being the tolerated zero-length degenerate case); the sweep
reports peak concurrency 1 because the zero-length note's leave event
sorts before its own enter event, yet with 1 voice first_fit raises the
capacity-exceeded error. -/
theorem C2_counterexample :
    List.Pairwise noteLE [(⟨0, 10, 60, 64⟩ : Note), ⟨5, 5, 62, 64⟩] ∧
      (∀ n ∈ [(⟨0, 10, 60, 64⟩ : Note), ⟨5, 5, 62, 64⟩], n.start ≤ n.stop) ∧
      maxSimultaneous [⟨0, 10, 60, 64⟩, ⟨5, 5, 62, 64⟩] = 1 ∧
      splitPartIntoVoices [⟨0, 10, 60, 64⟩, ⟨5, 5, 62, 64⟩] 1 Strategy.FIRST_FIT =
        Except.error (capacityMessage 1) := by
  refine ⟨?_, by decide, rfl, rfl⟩
  rw [List.pairwise_cons]
  refine ⟨?_, List.pairwise_singleton _ _⟩
  intro b hb
  rw [List.mem_singleton.1 hb]
  show (0 : Int) ≤ 5
  decide

/-- Claim C2 (amended): for every note list sorted by ascending start
whose notes all have strictly positive length (`start < end` — zero-length
degenerate intervals excluded, on which the claim fails), and every
strategy, if the voice count is at least the peak concurrency computed by
the sweep, then `splitPartIntoVoices` returns normally and every input
note is placed into some voice (none dropped). -/
theorem C2_peak_voices_suffice (notes : List Note) (mv : Nat) (strategy : Strategy)
    (hsorted : notes.Pairwise noteLE)
    (hpos : ∀ m ∈ notes, m.start < m.stop)
    (hpeak : maxSimultaneous notes ≤ (mv : Int)) :
    ∃ voices, splitPartIntoVoices notes mv strategy = Except.ok voices ∧
      (voices.map List.length).sum = notes.length := by
  obtain ⟨voices, h, hlen⟩ := splitFold_total_of_peak hsorted hpos hpeak notes []
    (List.replicate mv []) (by rw [List.nil_append]) (List.length_replicate _ _) (by simp)
  refine ⟨voices, h, ?_⟩
  rw [← List.length_flatten, hlen, List.flatten_replicate_nil, List.length_nil]
  omega

/-- Witness for C2 (amended) at a concrete input: two boundary-touching
notes, one voice. -/
theorem C2_witness :
    ∃ voices, splitPartIntoVoices [⟨0, 5, 60, 64⟩, ⟨5, 9, 62, 64⟩] 1 Strategy.FIRST_FIT =
        Except.ok voices ∧
      (voices.map List.length).sum = 2 :=
  C2_peak_voices_suffice [⟨0, 5, 60, 64⟩, ⟨5, 9, 62, 64⟩] 1 Strategy.FIRST_FIT
    (by
      rw [List.pairwise_cons]
      refine ⟨?_, List.pairwise_singleton _ _⟩
      intro b hb
      rw [List.mem_singleton.1 hb]
      show (0 : Int) ≤ 5
      decide)
    (by decide) (by decide)
